import Mathlib

/-!
# Verification of the 红楼RAG retrieval + answer post-processing pipeline

Shallow embedding of the pipeline logic of this repository:

* `src/app.py` — `clean_answer` (the multi-stage answer sanitizer), the
  fallback logic in `main` that replaces an over-stripped answer by a prefix
  of the raw answer, and the session-history handling on query submission.
* `src/step3_rag_engine.py` — `HongLouRAG.retrieve` (chapter-deduplicating
  filter over ranked similarity-search candidates), `HongLouRAG.generate`
  (prompt assembly from retrieved passages plus the instruction template).

Text is modelled as `List Char` (one entry per Unicode code point, matching
Python's `str` indexing and `len`).  The external similarity search and the
language model are parameters.  All definitions are executable and
structurally recursive, so concrete runs evaluate by `decide` / `rfl`.
-/

set_option maxRecDepth 100000

namespace HongLou

/-- Python whitespace, as used by `str.strip` / `str.isspace` and by the
regex class `\s`: the ASCII whitespace characters plus the Unicode
whitespace characters that can occur in this pipeline's text. -/
def isPySpace (c : Char) : Bool :=
  c == ' ' || c == '\t' || c == '\n' || c == '\r' || c == '\x0b' || c == '\x0c' ||
  c == '\x1c' || c == '\x1d' || c == '\x1e' || c == '\x1f' || c == '\x85' || c == '\xa0' ||
  c == ' ' || c == ' ' || c == '　'

/-- Python `str.lstrip()`. -/
def pyStripLeft (s : List Char) : List Char := s.dropWhile isPySpace

/-- Python `str.rstrip()`. -/
def pyStripRight (s : List Char) : List Char := (s.reverse.dropWhile isPySpace).reverse

/-- Python `str.strip()`: drop leading and trailing whitespace. -/
def pyStrip (s : List Char) : List Char := pyStripRight (pyStripLeft s)

/-- Python `pat in s` (substring test). -/
def hasSub (pat : List Char) : List Char → Bool
  | [] => pat.isEmpty
  | c :: rest => pat.isPrefixOf (c :: rest) || hasSub pat rest

/-- Python `s[:s.index(pat)]`: the text before the first occurrence of
`pat` in `s`, or `none` when `pat` does not occur. -/
def beforeFirst? (pat : List Char) : List Char → Option (List Char)
  | [] => none
  | c :: rest =>
    if pat.isPrefixOf (c :: rest) then some []
    else (beforeFirst? pat rest).map (c :: ·)

/-- Helper for `afterLast?`: scan left to right; `skip` is the number of
characters of an already-matched occurrence still to be consumed (Python's
`str.split` matches non-overlapping occurrences left to right), and `acc`
remembers the suffix following the occurrence matched most recently. -/
def afterLastAux (pat : List Char) : Nat → Option (List Char) → List Char → Option (List Char)
  | _, acc, [] => acc
  | n+1, acc, _ :: rest => afterLastAux pat n acc rest
  | 0, acc, c :: rest =>
    if pat.isPrefixOf (c :: rest) then
      afterLastAux pat (pat.length - 1) (some (rest.drop (pat.length - 1))) rest
    else
      afterLastAux pat 0 acc rest

/-- Python `s.split(pat)[-1]` (for nonempty `pat`): the text after the last
non-overlapping occurrence of `pat`, or `none` when `pat` does not occur. -/
def afterLast? (pat s : List Char) : Option (List Char) :=
  if pat.isEmpty then none else afterLastAux pat 0 none s

/-- Helper for `removeAll`: scan left to right; `skip` is the number of
characters of an already-matched occurrence still to be dropped. -/
def removeAllAux (pat : List Char) : Nat → List Char → List Char
  | _, [] => []
  | n+1, _ :: rest => removeAllAux pat n rest
  | 0, c :: rest =>
    if pat.isPrefixOf (c :: rest) then removeAllAux pat (pat.length - 1) rest
    else c :: removeAllAux pat 0 rest

/-- Python `s.replace(pat, '')`: delete every non-overlapping occurrence of
`pat`, scanning left to right (a single pass; text formed by a deletion is
not rescanned behind the current position). -/
def removeAll (pat s : List Char) : List Char :=
  if pat.isEmpty then s else removeAllAux pat 0 s

/-- Python `s.endswith(suf)`. -/
def pyEndsWith (suf s : List Char) : Bool := suf.isSuffixOf s

/-- The length of the longest whitespace prefix of `l` that ends with a
newline, or `none` when no whitespace prefix ends with a newline.  This is
how far the match of `re.sub`'s pattern `\n\s*\n+` extends past its first
newline: greedy `\s*` followed by greedy `\n+` ends at the last newline of
the maximal whitespace run. -/
def wsRunNL : List Char → Option Nat
  | [] => none
  | c :: rest =>
    if isPySpace c then
      match wsRunNL rest with
      | some n => some (n+1)
      | none => if c = '\n' then some 1 else none
    else none

/-- Helper for `subBlank`: scan left to right; `skip` counts characters of
an already-matched blank region still to be consumed. -/
def subBlankAux : Nat → List Char → List Char
  | _, [] => []
  | n+1, _ :: rest => subBlankAux n rest
  | 0, c :: rest =>
    if c = '\n' then
      match wsRunNL rest with
      | some n => '\n' :: '\n' :: subBlankAux n rest
      | none => c :: subBlankAux 0 rest
    else c :: subBlankAux 0 rest

/-- Python `re.sub(r'\n\s*\n+', '\n\n', s)`: replace every blank region
(a newline, then whitespace, then at least one more newline, extending to
the last newline of the maximal whitespace run) by exactly one blank line. -/
def subBlank (s : List Char) : List Char := subBlankAux 0 s

/-- A text is blank-collapsed when no suffix starting with a newline allows
the blank-region pattern to match more than a single following newline:
every such suffix `'\n' :: u` has `wsRunNL u = none` (no further blank
region) or `wsRunNL u = some 1` (exactly the second newline of an already
collapsed `'\n\n'`).  This characterizes the fixed points of `subBlank`. -/
def noCollapse (s : List Char) : Prop :=
  ∀ t u : List Char, t <:+ s → t = '\n' :: u → wsRunNL u = none ∨ wsRunNL u = some 1

/-! ## `clean_answer` (src/app.py, lines 88–128) -/

/-- The end-of-answer marker `【结束】`. -/
def endMarker : List Char := "【结束】".toList

/-- The answer marker `【回答】`. -/
def answerMarker : List Char := "【回答】".toList

/-- The structural marker tokens deleted by strategy 3 of `clean_answer`,
in source order. -/
def markers : List (List Char) :=
  ["【回答】", "【结束】", "专家解读：", "【任务】", "【检索资料】", "【用户问题】", "【红学分析】"].map
    String.toList

/-- The closing boilerplate phrases deleted by strategy 5 of `clean_answer`,
in source order. -/
def closingPhrases : List (List Char) :=
  ["如有其他问题或需要进一步探讨，请随时告知。",
   "如需进一步探讨，请随时告知。",
   "希望您满意。",
   "希望对您有所帮助。",
   "以上回答严格遵循了您的要求。"].map String.toList

/-- Strategy 1: `if '【结束】' in raw: raw = raw[:raw.index('【结束】')].strip()`. -/
def cleanStep1 (s : List Char) : List Char :=
  match beforeFirst? endMarker s with
  | some t => pyStrip t
  | none => s

/-- Strategy 2: `if '【回答】' in raw: parts = raw.split('【回答】');
if len(parts) > 1: raw = parts[-1].strip()`.  Whenever the marker occurs at
all, `split` yields at least two parts, so the inner test always succeeds
and the text after the last occurrence is kept. -/
def cleanStep2 (s : List Char) : List Char :=
  match afterLast? answerMarker s with
  | some t => pyStrip t
  | none => s

/-- Strategy 3: `for marker in markers: raw = raw.replace(marker, '').strip()`. -/
def cleanStep3 (s : List Char) : List Char :=
  markers.foldl (fun acc m => pyStrip (removeAll m acc)) s

/-- Strategy 4: `if raw.endswith('以上'): raw = raw[:-2].strip()`. -/
def cleanStep4 (s : List Char) : List Char :=
  if pyEndsWith "以上".toList s then pyStrip (s.take (s.length - 2)) else s

/-- Strategy 5: `for phrase in closing_phrases: raw = raw.replace(phrase, '').strip()`. -/
def cleanStep5 (s : List Char) : List Char :=
  closingPhrases.foldl (fun acc p => pyStrip (removeAll p acc)) s

/-- `clean_answer` (src/app.py): the empty-input guard, then strategies 1–5,
then `re.sub(r'\n\s*\n+', '\n\n', ·)`, then a final `strip()`. -/
def cleanAnswer (s : List Char) : List Char :=
  if s.isEmpty then s
  else pyStrip (subBlank (cleanStep5 (cleanStep4 (cleanStep3 (cleanStep2 (cleanStep1 s))))))

/-- The caller-side fallback in `main` (src/app.py, lines 250–255):
`cleaned = clean_answer(raw)`, and if `len(cleaned) < 50 and len(raw) > 100`
then `cleaned = raw[:500]`. -/
def displayedAnswer (raw : List Char) : List Char :=
  let cleaned := cleanAnswer raw
  if cleaned.length < 50 ∧ raw.length > 100 then raw.take 500 else cleaned

/-! ## `HongLouRAG.retrieve` and `HongLouRAG.generate` (src/step3_rag_engine.py) -/

/-- A langchain `Document` as this pipeline uses it: `page_content` plus the
metadata keys read by the code (`chapter`, `chapter_title`, `type`).  Each
metadata key may be absent, hence `Option`; the code reads them with
`metadata.get(key, default)`. -/
structure Doc where
  page_content : List Char
  chapter : Option Int
  chapter_title : Option (List Char)
  type : Option (List Char)
deriving DecidableEq

/-- `doc.metadata.get('chapter', 0)`. -/
def chapterOf (d : Doc) : Int := d.chapter.getD 0

/-- The dedup loop of `retrieve`: `seen_chapters` starts empty; a document
is kept iff its chapter key is not yet in `seen_chapters`. -/
def dedupDocs (seen : List Int) : List Doc → List Doc
  | [] => []
  | d :: rest =>
    if chapterOf d ∈ seen then dedupDocs seen rest
    else d :: dedupDocs (chapterOf d :: seen) rest

/-- The pure part of `HongLouRAG.retrieve`, as a function of the ranked
candidate list returned by `self.vectorstore.similarity_search(query, k)`:
keep the first candidate of each distinct chapter key, then
`unique_docs[:3]`. -/
def retrieveFilter (docs : List Doc) : List Doc :=
  (dedupDocs [] docs).take 3

/-- `HongLouRAG.retrieve(query, k=4)`, with the similarity search abstracted
as `search : k ↦ ranked candidates for the (fixed) query`. -/
def retrieve (search : Nat → List Doc) (k : Nat := 4) : List Doc :=
  retrieveFilter (search k)

/-- Decimal rendering of a natural number, as Python's `f"{i}"`. -/
def natDigits (n : Nat) : List Char := Nat.toDigits 10 n

/-- One line of the context block built by `generate`:
`f"[{i}] {chapter}（{source}）：{content}..."` with
`chapter = metadata.get('chapter_title', 'unknown')`,
`source = metadata.get('type', '正文')`, `content = page_content[:300]`. -/
def renderDoc (i : Nat) (d : Doc) : List Char :=
  "[".toList ++ natDigits i ++ "] ".toList ++ d.chapter_title.getD "unknown".toList
    ++ "（".toList ++ d.type.getD "正文".toList ++ "）：".toList
    ++ d.page_content.take 300 ++ "...".toList

/-- The loop `for i, doc in enumerate(docs, 1): context_parts.append(...)`. -/
def renderParts (i : Nat) : List Doc → List (List Char)
  | [] => []
  | d :: rest => renderDoc i d :: renderParts (i+1) rest

/-- `context = "\n\n".join(context_parts)`. -/
def buildContext (docs : List Doc) : List Char :=
  List.intercalate "\n\n".toList (renderParts 1 docs)

/-- `self.rag_template` (src/step3_rag_engine.py, `_init_prompts`). -/
def ragTemplate : List Char :=
  "你是一位精通《红楼梦》的资深红学研究者，擅长文本细读与脂砚斋评注解读。\n\n【任务】基于以下检索到的原文与评注，回答用户的问题。回答要求：\n1. 必须引用具体回目（如\"见于第三回\"）\n2. 结合脂砚斋评注（如有）分析深层含义\n3. 指出艺术手法（草蛇灰线、春秋笔法等）\n\n【检索资料】\n{context}\n\n【用户问题】\n{question}\n\n【红学分析】".toList

/-- Helper for `pyFormat`: a single left-to-right scan over the template
replacing the field `k1` by `v1` and the field `k2` by `v2`; `skip` counts
characters of an already-matched field name still to be consumed.
Replacement text is not rescanned, as with `str.format`. -/
def formatAux (k1 v1 k2 v2 : List Char) : Nat → List Char → List Char
  | _, [] => []
  | n+1, _ :: rest => formatAux k1 v1 k2 v2 n rest
  | 0, c :: rest =>
    if k1.isPrefixOf (c :: rest) then v1 ++ formatAux k1 v1 k2 v2 (k1.length - 1) rest
    else if k2.isPrefixOf (c :: rest) then v2 ++ formatAux k1 v1 k2 v2 (k2.length - 1) rest
    else c :: formatAux k1 v1 k2 v2 0 rest

/-- `self.rag_template.format(context=..., question=...)`. -/
def pyFormat (ctx question : List Char) : List Char :=
  formatAux "{context}".toList ctx "{question}".toList question 0 ragTemplate

/-- The prompt built inside `generate` from the retained passages and the
user question. -/
def buildPrompt (docs : List Doc) (question : List Char) : List Char :=
  pyFormat (buildContext docs) question

/-- The result dictionary of a successful `HongLouRAG.generate` call. -/
structure GenerateResult where
  answer : List Char
  sources : List Doc
  context : List Char
deriving DecidableEq

/-- The success path of `HongLouRAG.generate`: retrieve with the default
candidate count, assemble the prompt, call the language model (abstracted as
`llm`), strip an echoed prompt, and package the result. -/
def generate (search : Nat → List Doc) (llm : List Char → List Char)
    (query : List Char) : GenerateResult :=
  let docs := retrieve search
  let context := buildContext docs
  let prompt := pyFormat context query
  let response := llm prompt
  let response := if hasSub prompt response then pyStrip (removeAll prompt response) else response
  ⟨response, docs, context⟩

/-! ## Session history (src/app.py, `main`, lines 233–276) -/

/-- A conversation role. -/
inductive Role
  | user
  | assistant
deriving DecidableEq

/-- One entry of an assistant turn's `sources` list:
`{'chapter': metadata.get('chapter_title', '未知'),
'type': metadata.get('type', '正文'), 'content': page_content}`. -/
structure SourceEntry where
  chapter : List Char
  type : List Char
  content : List Char
deriving DecidableEq

/-- One message dict in `st.session_state.messages`; user turns and
error turns carry no `sources` key. -/
structure Turn where
  role : Role
  content : List Char
  sources : Option (List SourceEntry)
deriving DecidableEq

/-- The outcome of the generation call for one submission: either a raw
answer with its source documents, or an exception message. -/
inductive GenOutcome
  | ok (answer : List Char) (sources : List Doc)
  | err (msg : List Char)

/-- The source entry stored for a cited document. -/
def sourceEntryOf (d : Doc) : SourceEntry :=
  ⟨d.chapter_title.getD "未知".toList, d.type.getD "正文".toList, d.page_content⟩

/-- The handler for one query submission (src/app.py, lines 233–276): append
the user turn, then try generation; on success append an assistant turn with
the displayed (cleaned or fallback) answer and the cited sources, on failure
append an assistant turn with the apologetic error message and no sources. -/
def submitQuery (history : List Turn) (input : List Char) (outcome : GenOutcome) : List Turn :=
  let h1 := history ++ [⟨Role.user, input, none⟩]
  match outcome with
  | GenOutcome.ok answer srcs =>
    h1 ++ [⟨Role.assistant, displayedAnswer answer, some (srcs.map sourceEntryOf)⟩]
  | GenOutcome.err msg =>
    h1 ++ [⟨Role.assistant, "抱歉，查阅典籍时遇到阻碍：".toList ++ msg, none⟩]

/-- The per-submission pipeline of `main` including the sidebar slider value
`k_value = st.slider("引用段落数", 2, 5, 3)`: the slider value is read into
`kValue` but the generation call `rag.generate(user_input)` never receives
it. -/
def handleQuery (kValue : Nat) (search : Nat → List Doc) (llm : List Char → List Char)
    (history : List Turn) (query : List Char) : List Turn :=
  let _ := kValue
  let result := generate search llm query
  submitQuery history query (GenOutcome.ok result.answer result.sources)

/-! ## Lemmas about the chapter-deduplicating retriever -/

theorem dedupDocs_sublist (seen : List Int) (docs : List Doc) :
    (dedupDocs seen docs).Sublist docs := by
  induction docs generalizing seen with
  | nil => simp [dedupDocs]
  | cons a rest ih =>
    by_cases h : chapterOf a ∈ seen
    · simp only [dedupDocs, if_pos h]
      exact (ih seen).cons a
    · simp only [dedupDocs, if_neg h]
      exact (ih _).cons₂ a

theorem dedupDocs_not_mem_seen (seen : List Int) (docs : List Doc) :
    ∀ d ∈ dedupDocs seen docs, chapterOf d ∉ seen := by
  induction docs generalizing seen with
  | nil => simp [dedupDocs]
  | cons a rest ih =>
    by_cases h : chapterOf a ∈ seen
    · simp only [dedupDocs, if_pos h]
      exact ih seen
    · simp only [dedupDocs, if_neg h]
      intro d hd
      rcases List.mem_cons.mp hd with rfl | hmem
      · exact h
      · intro hs
        exact ih (chapterOf a :: seen) d hmem (List.mem_cons_of_mem _ hs)

theorem dedupDocs_keys_nodup (seen : List Int) (docs : List Doc) :
    ((dedupDocs seen docs).map chapterOf).Nodup := by
  induction docs generalizing seen with
  | nil => simp [dedupDocs]
  | cons a rest ih =>
    by_cases h : chapterOf a ∈ seen
    · simp only [dedupDocs, if_pos h]
      exact ih seen
    · simp only [dedupDocs, if_neg h, List.map_cons, List.nodup_cons]
      refine ⟨?_, ih _⟩
      intro hmem
      rcases List.mem_map.mp hmem with ⟨d, hd, hcd⟩
      apply dedupDocs_not_mem_seen _ _ d hd
      rw [hcd]
      exact List.mem_cons_self _ _

theorem dedupDocs_first_occ (seen : List Int) (docs : List Doc) :
    ∀ d ∈ dedupDocs seen docs,
      (docs.filter (fun x => chapterOf x == chapterOf d)).head? = some d := by
  induction docs generalizing seen with
  | nil => simp [dedupDocs]
  | cons a rest ih =>
    by_cases h : chapterOf a ∈ seen
    · intro d hd
      rw [dedupDocs, if_pos h] at hd
      have hne : ¬ (chapterOf a = chapterOf d) := by
        intro he
        exact dedupDocs_not_mem_seen _ _ d hd (he ▸ h)
      simp only [List.filter_cons, beq_iff_eq, hne, if_false, decide_eq_true_eq]
      exact ih seen d hd
    · intro d hd
      rw [dedupDocs, if_neg h] at hd
      rcases List.mem_cons.mp hd with rfl | hmem
      · simp [List.filter_cons]
      · have hkey := dedupDocs_not_mem_seen _ _ d hmem
        have hne : ¬ (chapterOf a = chapterOf d) := by
          intro he
          apply hkey
          rw [← he]
          exact List.mem_cons_self _ _
        simp only [List.filter_cons, beq_iff_eq, hne, if_false, decide_eq_true_eq]
        exact ih _ d hmem

theorem dedupDocs_complete (seen : List Int) (docs : List Doc) :
    ∀ d ∈ docs, chapterOf d ∈ seen ∨ chapterOf d ∈ (dedupDocs seen docs).map chapterOf := by
  induction docs generalizing seen with
  | nil => simp
  | cons a rest ih =>
    intro d hd
    by_cases h : chapterOf a ∈ seen
    · simp only [dedupDocs, if_pos h]
      rcases List.mem_cons.mp hd with rfl | hmem
      · exact Or.inl h
      · exact ih seen d hmem
    · simp only [dedupDocs, if_neg h, List.map_cons]
      rcases List.mem_cons.mp hd with rfl | hmem
      · exact Or.inr (List.mem_cons_self _ _)
      · rcases ih (chapterOf a :: seen) d hmem with hs | hm
        · rcases List.mem_cons.mp hs with he | hs'
          · exact Or.inr (by rw [he]; exact List.mem_cons_self _ _)
          · exact Or.inl hs'
        · exact Or.inr (List.mem_cons_of_mem _ hm)

theorem retrieveFilter_sublist (docs : List Doc) :
    (retrieveFilter docs).Sublist docs :=
  (List.take_sublist _ _).trans (dedupDocs_sublist [] docs)

theorem retrieveFilter_keys_nodup (docs : List Doc) :
    ((retrieveFilter docs).map chapterOf).Nodup := by
  rw [retrieveFilter, List.map_take]
  exact (List.take_sublist _ _).nodup (dedupDocs_keys_nodup [] docs)

theorem retrieveFilter_first_occ (docs : List Doc) :
    ∀ d ∈ retrieveFilter docs,
      (docs.filter (fun x => chapterOf x == chapterOf d)).head? = some d := by
  intro d hd
  exact dedupDocs_first_occ [] docs d ((List.take_sublist _ _).subset hd)

theorem retrieveFilter_complete (docs : List Doc) :
    (retrieveFilter docs).length < 3 →
      ∀ d ∈ docs, chapterOf d ∈ (retrieveFilter docs).map chapterOf := by
  intro hlen d hd
  have hdd : (dedupDocs [] docs).length < 3 := by
    rw [retrieveFilter, List.length_take] at hlen
    omega
  have heq : retrieveFilter docs = dedupDocs [] docs := by
    rw [retrieveFilter]
    exact List.take_of_length_le (by omega)
  rcases dedupDocs_complete [] docs d hd with h0 | h0
  · simp at h0
  · rw [heq]
    exact h0

theorem nodup_const_length_le_one {l : List Int} (hn : l.Nodup) (a : Int)
    (h : ∀ x ∈ l, x = a) : l.length ≤ 1 := by
  rcases l with _ | ⟨x, _ | ⟨y, t⟩⟩
  · simp
  · simp
  · exfalso
    have hx := h x (by simp)
    have hy := h y (by simp)
    rw [List.nodup_cons] at hn
    apply hn.1
    rw [hx, hy]
    exact List.mem_cons_self _ _

/-- C1: for every ranked candidate list, the chapter-deduplicating retriever
outputs a list with pairwise distinct chapter keys, of length at most 3 and
at most the input length, that is a sublist of the input (original rank
order), each kept entry being the first input entry of its chapter key; and
when fewer than 3 entries are kept, every input chapter key is represented. -/
theorem retrieve_chapter_dedup (docs : List Doc) :
    ((retrieveFilter docs).map chapterOf).Nodup ∧
    (retrieveFilter docs).length ≤ 3 ∧
    (retrieveFilter docs).length ≤ docs.length ∧
    (retrieveFilter docs).Sublist docs ∧
    (∀ d ∈ retrieveFilter docs,
      (docs.filter (fun x => chapterOf x == chapterOf d)).head? = some d) ∧
    ((retrieveFilter docs).length < 3 →
      ∀ d ∈ docs, chapterOf d ∈ (retrieveFilter docs).map chapterOf) := by
  refine ⟨retrieveFilter_keys_nodup docs, ?_, (retrieveFilter_sublist docs).length_le,
    retrieveFilter_sublist docs, retrieveFilter_first_occ docs, retrieveFilter_complete docs⟩
  rw [retrieveFilter, List.length_take]
  omega

/-- Witness for C1 at the spec's example chapter sequence [3, 3, 5] (a later
duplicate of chapter 3 is dropped, the first occurrences are kept in rank
order, and with fewer than 3 kept entries every chapter is represented). -/
theorem retrieve_chapter_dedup_witness :
    (([⟨"a".toList, some 3, none, none⟩, ⟨"b".toList, some 3, none, none⟩,
        ⟨"c".toList, some 5, none, none⟩] : List Doc).filter
      (fun x => chapterOf x == chapterOf (⟨"a".toList, some 3, none, none⟩ : Doc))).head? =
        some ⟨"a".toList, some 3, none, none⟩ ∧
    chapterOf (⟨"b".toList, some 3, none, none⟩ : Doc) ∈
      (retrieveFilter [⟨"a".toList, some 3, none, none⟩, ⟨"b".toList, some 3, none, none⟩,
        ⟨"c".toList, some 5, none, none⟩]).map chapterOf :=
  ⟨(retrieve_chapter_dedup _).2.2.2.2.1 _ (by decide),
   (retrieve_chapter_dedup _).2.2.2.2.2 (by decide) _ (by decide)⟩

/-- C10: a candidate whose metadata lacks the chapter key is treated as
chapter 0; the retrieval result contains at most one entry whose chapter key
is 0 (missing or literal), and any such entry is the first input candidate
whose chapter key is 0, so a first missing-chapter candidate excludes every
later missing-chapter or literal-chapter-0 candidate. -/
theorem retrieve_missing_chapter_zero (docs : List Doc) :
    (∀ d : Doc, d.chapter = none → chapterOf d = 0) ∧
    ((retrieveFilter docs).filter (fun d => chapterOf d == 0)).length ≤ 1 ∧
    ∀ d ∈ retrieveFilter docs, chapterOf d = 0 →
      (docs.filter (fun x => chapterOf x == 0)).head? = some d := by
  refine ⟨?_, ?_, ?_⟩
  · intro d h
    simp [chapterOf, h]
  · rw [← List.length_map _ chapterOf]
    apply nodup_const_length_le_one _ 0
    · intro x hx
      rcases List.mem_map.mp hx with ⟨d, hd, hcd⟩
      have := List.of_mem_filter hd
      rw [← hcd]
      exact beq_iff_eq.mp this
    · exact ((List.filter_sublist _).map chapterOf).nodup (retrieveFilter_keys_nodup docs)
  · intro d hd h0
    have := retrieveFilter_first_occ docs d hd
    rw [h0] at this
    exact this

/-- Witness for C10: with candidates [missing chapter, literal chapter 0,
chapter 2], the missing-chapter candidate is kept, at most one chapter-key-0
entry survives, and the kept one is the first chapter-key-0 candidate. -/
theorem retrieve_missing_chapter_zero_witness :
    ((retrieveFilter [⟨"a".toList, none, none, none⟩, ⟨"b".toList, some 0, none, none⟩,
        ⟨"c".toList, some 2, none, none⟩]).filter (fun d => chapterOf d == 0)).length ≤ 1 ∧
    (([⟨"a".toList, none, none, none⟩, ⟨"b".toList, some 0, none, none⟩,
        ⟨"c".toList, some 2, none, none⟩] : List Doc).filter
      (fun x => chapterOf x == 0)).head? = some ⟨"a".toList, none, none, none⟩ :=
  ⟨(retrieve_missing_chapter_zero _).2.1,
   (retrieve_missing_chapter_zero _).2.2 _ (by decide) (by decide)⟩

/-! ## Length lemmas for the sanitizer -/

theorem pyStripLeft_length_le (s : List Char) : (pyStripLeft s).length ≤ s.length :=
  (List.dropWhile_suffix _).sublist.length_le

theorem pyStripRight_length_le (s : List Char) : (pyStripRight s).length ≤ s.length := by
  rw [pyStripRight, List.length_reverse]
  exact le_trans (List.dropWhile_suffix _).sublist.length_le (by rw [List.length_reverse])

theorem pyStrip_length_le (s : List Char) : (pyStrip s).length ≤ s.length :=
  le_trans (pyStripRight_length_le _) (pyStripLeft_length_le _)

theorem beforeFirst?_length_le (pat : List Char) (s t : List Char)
    (h : beforeFirst? pat s = some t) : t.length ≤ s.length := by
  induction s generalizing t with
  | nil => simp [beforeFirst?] at h
  | cons c rest ih =>
    simp only [beforeFirst?] at h
    by_cases hp : pat.isPrefixOf (c :: rest) = true
    · rw [if_pos hp] at h
      injection h with h
      rw [← h]
      simp
    · rw [if_neg hp] at h
      cases hb : beforeFirst? pat rest with
      | none => rw [hb] at h; simp at h
      | some u =>
        rw [hb] at h
        injection h with h
        rw [← h]
        have := ih u hb
        simp only [List.length_cons]
        omega

theorem afterLastAux_length_le (pat : List Char) (n : Nat) (acc : Option (List Char))
    (s t : List Char) (h : afterLastAux pat n acc s = some t) :
    t.length ≤ s.length ∨ acc = some t := by
  induction s generalizing n acc with
  | nil =>
    simp only [afterLastAux] at h
    exact Or.inr h
  | cons c rest ih =>
    cases n with
    | succ m =>
      simp only [afterLastAux] at h
      rcases ih m acc h with h1 | h1
      · exact Or.inl (le_trans h1 (by simp))
      · exact Or.inr h1
    | zero =>
      simp only [afterLastAux] at h
      by_cases hp : pat.isPrefixOf (c :: rest) = true
      · rw [if_pos hp] at h
        rcases ih _ _ h with h1 | h1
        · exact Or.inl (le_trans h1 (by simp))
        · left
          injection h1 with h1
          rw [← h1]
          simp only [List.length_drop, List.length_cons]
          omega
      · rw [if_neg hp] at h
        rcases ih 0 acc h with h1 | h1
        · exact Or.inl (le_trans h1 (by simp))
        · exact Or.inr h1

theorem afterLast?_length_le (pat s t : List Char) (h : afterLast? pat s = some t) :
    t.length ≤ s.length := by
  rw [afterLast?] at h
  split at h
  · exact absurd h (by simp)
  · rcases afterLastAux_length_le pat 0 none s t h with h1 | h1
    · exact h1
    · exact absurd h1 (by simp)

theorem removeAllAux_length_le (pat : List Char) (n : Nat) (s : List Char) :
    (removeAllAux pat n s).length ≤ s.length := by
  induction s generalizing n with
  | nil => simp [removeAllAux]
  | cons c rest ih =>
    cases n with
    | succ m =>
      simp only [removeAllAux]
      exact le_trans (ih m) (by simp)
    | zero =>
      simp only [removeAllAux]
      by_cases hp : pat.isPrefixOf (c :: rest) = true
      · rw [if_pos hp]
        exact le_trans (ih _) (by simp)
      · rw [if_neg hp]
        simpa using ih 0

theorem removeAll_length_le (pat s : List Char) : (removeAll pat s).length ≤ s.length := by
  rw [removeAll]
  split
  · exact le_refl _
  · exact removeAllAux_length_le pat 0 s

theorem wsRunNL_bounds {l : List Char} {n : Nat} (h : wsRunNL l = some n) :
    1 ≤ n ∧ n ≤ l.length := by
  induction l generalizing n with
  | nil => simp [wsRunNL] at h
  | cons c rest ih =>
    simp only [wsRunNL] at h
    by_cases hc : isPySpace c = true
    · rw [if_pos hc] at h
      cases hw : wsRunNL rest with
      | some m =>
        rw [hw] at h
        injection h with h
        obtain ⟨h1, h2⟩ := ih hw
        simp only [List.length_cons]
        omega
      | none =>
        rw [hw] at h
        by_cases hnl : c = '\n'
        · rw [if_pos hnl] at h
          injection h with h
          simp only [List.length_cons]
          omega
        · rw [if_neg hnl] at h
          exact absurd h (by simp)
    · rw [if_neg hc] at h
      exact absurd h (by simp)

theorem subBlankAux_length_le (n : Nat) (s : List Char) :
    (subBlankAux n s).length ≤ s.length - n := by
  induction s generalizing n with
  | nil => simp [subBlankAux]
  | cons c rest ih =>
    cases n with
    | succ m =>
      simp only [subBlankAux]
      have := ih m
      simp only [List.length_cons]
      omega
    | zero =>
      simp only [subBlankAux]
      by_cases hc : c = '\n'
      · rw [if_pos hc]
        cases hw : wsRunNL rest with
        | some m =>
          dsimp only
          obtain ⟨h1, h2⟩ := wsRunNL_bounds hw
          have := ih m
          simp only [List.length_cons]
          omega
        | none =>
          dsimp only
          have := ih 0
          simp only [List.length_cons]
          omega
      · rw [if_neg hc]
        have := ih 0
        simp only [List.length_cons]
        omega

theorem subBlank_length_le (s : List Char) : (subBlank s).length ≤ s.length := by
  have := subBlankAux_length_le 0 s
  simpa using this

theorem foldl_strip_remove_length_le (L : List (List Char)) (s : List Char) :
    (L.foldl (fun acc m => pyStrip (removeAll m acc)) s).length ≤ s.length := by
  induction L generalizing s with
  | nil => simp
  | cons m L ih =>
    simp only [List.foldl_cons]
    exact le_trans (ih _) (le_trans (pyStrip_length_le _) (removeAll_length_le _ _))

theorem cleanStep1_length_le (s : List Char) : (cleanStep1 s).length ≤ s.length := by
  simp only [cleanStep1]
  cases hb : beforeFirst? endMarker s with
  | none => exact le_refl _
  | some t => exact le_trans (pyStrip_length_le _) (beforeFirst?_length_le _ _ _ hb)

theorem cleanStep2_length_le (s : List Char) : (cleanStep2 s).length ≤ s.length := by
  simp only [cleanStep2]
  cases hb : afterLast? answerMarker s with
  | none => exact le_refl _
  | some t => exact le_trans (pyStrip_length_le _) (afterLast?_length_le _ _ _ hb)

theorem cleanStep3_length_le (s : List Char) : (cleanStep3 s).length ≤ s.length :=
  foldl_strip_remove_length_le markers s

theorem cleanStep4_length_le (s : List Char) : (cleanStep4 s).length ≤ s.length := by
  simp only [cleanStep4]
  split
  · refine le_trans (pyStrip_length_le _) ?_
    simp only [List.length_take]
    omega
  · exact le_refl _

theorem cleanStep5_length_le (s : List Char) : (cleanStep5 s).length ≤ s.length :=
  foldl_strip_remove_length_le closingPhrases s

/-- C6: the sanitizer never lengthens the text: for every input, the length
of `clean_answer`'s output is at most the length of the input. -/
theorem clean_answer_length_le (s : List Char) : (cleanAnswer s).length ≤ s.length := by
  simp only [cleanAnswer]
  split
  · exact le_refl _
  · exact le_trans (pyStrip_length_le _) (le_trans (subBlank_length_le _)
      (le_trans (cleanStep5_length_le _) (le_trans (cleanStep4_length_le _)
        (le_trans (cleanStep3_length_le _) (le_trans (cleanStep2_length_le _)
          (cleanStep1_length_le _))))))

/-! ## Truncation at the end marker -/

theorem isPrefixOf_append_indep {p a : List Char} (b c : List Char) (h : p.length ≤ a.length) :
    p.isPrefixOf (a ++ b) = p.isPrefixOf (a ++ c) := by
  induction p generalizing a with
  | nil => simp [List.isPrefixOf]
  | cons x p ih =>
    cases a with
    | nil => simp at h
    | cons y a' =>
      have h' : p.length ≤ a'.length := by
        simp only [List.length_cons] at h
        omega
      simp only [List.cons_append, List.isPrefixOf, List.append_eq]
      rw [ih (a := a') h']

theorem beforeFirst?_append_indep (pat a b c : List Char) (hne : pat ≠ []) :
    beforeFirst? pat (a ++ (pat ++ b)) = beforeFirst? pat (a ++ (pat ++ c)) := by
  induction a with
  | nil =>
    simp only [List.nil_append]
    rcases pat with _ | ⟨x, p'⟩
    · exact absurd rfl hne
    · have hb2 : (x :: p').isPrefixOf ((x :: p') ++ b) = true := by
        rw [ List.isPrefixOf_iff_prefix]
        exact List.prefix_append _ _
      have hc2 : (x :: p').isPrefixOf ((x :: p') ++ c) = true := by
        rw [ List.isPrefixOf_iff_prefix]
        exact List.prefix_append _ _
      simp only [List.cons_append] at hb2 hc2 ⊢
      simp only [beforeFirst?]
      rw [if_pos hb2, if_pos hc2]
  | cons y a' ih =>
    have hlen : pat.length ≤ ((y :: a') ++ pat).length := by
      simp only [List.cons_append, List.length_cons, List.length_append]
      omega
    have hpre := isPrefixOf_append_indep (p := pat) (a := (y :: a') ++ pat) b c hlen
    simp only [List.cons_append, List.append_assoc] at hpre
    simp only [List.cons_append, beforeFirst?, List.append_eq]
    rw [hpre]
    by_cases hp : pat.isPrefixOf (y :: (a' ++ (pat ++ c))) = true
    · rw [if_pos hp, if_pos hp]
    · rw [if_neg hp, if_neg hp, ih]

theorem beforeFirst?_append_isSome (pat a b : List Char) (hne : pat ≠ []) :
    (beforeFirst? pat (a ++ (pat ++ b))).isSome = true := by
  induction a with
  | nil =>
    rcases pat with _ | ⟨x, p'⟩
    · exact absurd rfl hne
    · have hb2 : (x :: p').isPrefixOf ((x :: p') ++ b) = true := by
        rw [ List.isPrefixOf_iff_prefix]
        exact List.prefix_append _ _
      simp only [List.cons_append] at hb2
      simp only [List.nil_append, List.cons_append, beforeFirst?, List.append_eq]
      rw [if_pos hb2]
      rfl
  | cons y a' ih =>
    simp only [List.cons_append, beforeFirst?, List.append_eq]
    by_cases hp : pat.isPrefixOf (y :: (a' ++ (pat ++ b))) = true
    · rw [if_pos hp]
      rfl
    · rw [if_neg hp]
      simpa using ih

theorem cleanStep1_end_marker (pre post : List Char) :
    cleanStep1 (pre ++ endMarker ++ post) = cleanStep1 (pre ++ endMarker) := by
  have h := beforeFirst?_append_indep endMarker pre post [] (by decide)
  rw [List.append_nil] at h
  rw [← List.append_assoc] at h
  simp only [cleanStep1]
  rw [h]
  cases hb : beforeFirst? endMarker (pre ++ endMarker) with
  | some t => rfl
  | none =>
    exfalso
    have hs := beforeFirst?_append_isSome endMarker pre [] (by decide)
    rw [List.append_nil] at hs
    rw [hb] at hs
    simp at hs

/-- C3: whatever follows the first occurrence of the end marker `【结束】`
in the raw text has no influence on the sanitized result (it is discarded
by the truncation step), and the spec's example evaluates as stated:
`clean_answer('【回答】林黛玉…性格复杂。【结束】多余内容') = '林黛玉…性格复杂。'`. -/
theorem clean_answer_end_marker_truncation (pre post : List Char) :
    cleanAnswer (pre ++ endMarker ++ post) = cleanAnswer (pre ++ endMarker) ∧
    cleanAnswer "【回答】林黛玉…性格复杂。【结束】多余内容".toList = "林黛玉…性格复杂。".toList := by
  constructor
  · have hne : endMarker ≠ [] := by decide
    have g1 : (pre ++ endMarker ++ post).isEmpty = false := by
      simp [List.isEmpty_iff, hne]
    have g2 : (pre ++ endMarker).isEmpty = false := by
      simp [List.isEmpty_iff, hne]
    simp only [cleanAnswer, g1, g2, Bool.false_eq_true, if_false]
    rw [cleanStep1_end_marker]
  · decide

/-- C4 is the documented intent, but the code has a slip: the comment on
strategy 2 says the rule fires only when the text contains several answer
markers (`如果包含多个【回答】`), yet after the guard `'【回答】' in raw`
the split always yields at least two parts, so `len(parts) > 1` is vacuous
and the rule fires for a single occurrence as well.  At the failing input
`'序言【回答】正文'` (exactly one occurrence) the code discards the text
before the marker and returns `'正文'`, not `'序言正文'` as the claim's
retention of the preceding text would give. -/
theorem clean_answer_single_marker_bug :
    cleanAnswer "序言【回答】正文".toList = "正文".toList ∧
    cleanAnswer "序言【回答】正文".toList ≠ "序言正文".toList := by
  constructor
  · decide
  · decide

/-- C2 as stated is false: the sanitizer is not idempotent.  At the input
`'以上以上'` one application strips a single trailing `'以上'` leaving
`'以上'`, and a second application strips again, yielding `''`. -/
theorem clean_answer_not_idempotent :
    cleanAnswer (cleanAnswer "以上以上".toList) ≠ cleanAnswer "以上以上".toList := by
  decide

/-- C5: the caller replaces the cleaned text by the 500-character prefix of
the raw answer exactly when the cleaned result is shorter than 50 characters
while the raw answer is longer than 100 characters; the prefix is the whole
raw answer when that is at most 500 characters long; otherwise the cleaned
text is displayed unchanged. -/
theorem displayed_answer_fallback (raw : List Char) :
    ((cleanAnswer raw).length < 50 → raw.length > 100 →
      displayedAnswer raw = raw.take 500) ∧
    (raw.length ≤ 500 → raw.take 500 = raw) ∧
    (¬((cleanAnswer raw).length < 50 ∧ raw.length > 100) →
      displayedAnswer raw = cleanAnswer raw) := by
  refine ⟨?_, ?_, ?_⟩
  · intro h1 h2
    simp only [displayedAnswer]
    rw [if_pos ⟨h1, h2⟩]
  · intro h
    exact List.take_of_length_le h
  · intro h
    simp only [displayedAnswer]
    rw [if_neg h]

/-- Witness for C5: a 104-character raw answer consisting of 26 task markers
cleans to the empty string, so the fallback fires and displays the raw
answer (whole, because it is shorter than 500 characters); a short benign
answer is displayed as its cleaned form. -/
theorem displayed_answer_fallback_witness :
    displayedAnswer (List.replicate 26 "【任务】".toList).flatten =
      (List.replicate 26 "【任务】".toList).flatten ∧
    displayedAnswer "你好".toList = cleanAnswer "你好".toList := by
  constructor
  · have h1 := (displayed_answer_fallback (List.replicate 26 "【任务】".toList).flatten).1
      (by decide) (by decide)
    have h2 := (displayed_answer_fallback (List.replicate 26 "【任务】".toList).flatten).2.1
      (by decide)
    rw [h1, h2]
  · exact (displayed_answer_fallback "你好".toList).2.2 (by decide)

/-! ## Prompt assembly -/

/-- The part of the instruction template before the `{context}` field. -/
def ragTemplateBefore : List Char :=
  "你是一位精通《红楼梦》的资深红学研究者，擅长文本细读与脂砚斋评注解读。\n\n【任务】基于以下检索到的原文与评注，回答用户的问题。回答要求：\n1. 必须引用具体回目（如\"见于第三回\"）\n2. 结合脂砚斋评注（如有）分析深层含义\n3. 指出艺术手法（草蛇灰线、春秋笔法等）\n\n【检索资料】\n".toList

/-- The part of the instruction template between the `{context}` and
`{question}` fields. -/
def ragTemplateBetween : List Char := "\n\n【用户问题】\n".toList

/-- The part of the instruction template after the `{question}` field. -/
def ragTemplateAfter : List Char := "\n\n【红学分析】".toList

theorem renderParts_eq_enumFrom (i : Nat) (docs : List Doc) :
    renderParts i docs = (docs.enumFrom i).map (fun p => renderDoc p.1 p.2) := by
  induction docs generalizing i with
  | nil => simp [renderParts]
  | cons d rest ih => simp [renderParts, List.enumFrom, ih]

/-- C7: the prompt assembled inside `generate` renders the `i`-th retained
passage (1-based) as `[i] chapter_title（type）：content[:300]...`, joins the
rendered passages with blank lines, and splices the joined context block and
the user question into the fixed instruction template (a pure function of
the passages and the question): the `format` call equals the literal
template text around the two substituted values. -/
theorem generate_prompt_assembly (docs : List Doc) (question : List Char) :
    buildPrompt docs question =
      ragTemplateBefore ++ (buildContext docs ++ (ragTemplateBetween ++
        (question ++ ragTemplateAfter))) ∧
    buildContext docs =
      List.intercalate "\n\n".toList ((docs.enumFrom 1).map (fun p => renderDoc p.1 p.2)) := by
  constructor
  · rfl
  · rw [buildContext, renderParts_eq_enumFrom]

/-- C8: one query submission appends exactly two turns: first the user turn
with the submitted input, then — when generation succeeds — an assistant
turn carrying the displayed answer and the cited passages, or — when it
fails — an assistant turn with the apologetic error message and no cited
passages; the previous history is preserved, so the conversation continues
after a failure. -/
theorem submit_query_history (history : List Turn) (input answer msg : List Char)
    (srcs : List Doc) :
    submitQuery history input (GenOutcome.ok answer srcs) =
      history ++ [⟨Role.user, input, none⟩,
        ⟨Role.assistant, displayedAnswer answer, some (srcs.map sourceEntryOf)⟩] ∧
    submitQuery history input (GenOutcome.err msg) =
      history ++ [⟨Role.user, input, none⟩,
        ⟨Role.assistant, "抱歉，查阅典籍时遇到阻碍：".toList ++ msg, none⟩] ∧
    (∀ outcome : GenOutcome, (submitQuery history input outcome).length = history.length + 2) := by
  refine ⟨?_, ?_, ?_⟩
  · simp [submitQuery]
  · simp [submitQuery]
  · intro outcome
    cases outcome with
    | ok answer srcs => simp [submitQuery]
    | err msg => simp [submitQuery]

/-- C9: the sidebar slider value has no effect: the handler produces the
same history extension for any two slider settings, because `generate`
always retrieves with its default candidate count `k = 4` (the retrieval
depends only on the candidate list for `k = 4`) and never reads the slider
value. -/
theorem slider_value_no_effect (k1 k2 : Nat) (search : Nat → List Doc)
    (llm : List Char → List Char) (history : List Turn) (query : List Char) :
    handleQuery k1 search llm history query = handleQuery k2 search llm history query ∧
    generate search llm query = generate (fun _ => search 4) llm query ∧
    (generate search llm query).sources = retrieveFilter (search 4) :=
  ⟨rfl, rfl, rfl⟩

/-! ## Idempotence of stripping, and identity of the cleanup steps on
occurrence-free text -/

theorem dropWhile_idem (p : Char → Bool) (l : List Char) :
    (l.dropWhile p).dropWhile p = l.dropWhile p := by
  induction l with
  | nil => simp
  | cons c rest ih =>
    by_cases hc : p c = true
    · simp [List.dropWhile_cons, hc, ih]
    · simp [List.dropWhile_cons, hc]

theorem dropWhile_eq_self_of_front (p : Char → Bool) {t u : List Char}
    (ht : t.dropWhile p = t) (hu : u <+: t) : u.dropWhile p = u := by
  cases u with
  | nil => simp
  | cons c u' =>
    obtain ⟨r, hr⟩ := hu
    rw [← hr, List.cons_append, List.dropWhile_cons] at ht
    by_cases hc : p c = true
    · exfalso
      rw [if_pos hc] at ht
      have := congrArg List.length ht
      have hle := (List.dropWhile_suffix (l := u' ++ r) p).sublist.length_le
      simp only [List.length_cons, List.length_append] at this hle
      omega
    · rw [List.dropWhile_cons, if_neg hc]

theorem pyStripRight_front (s : List Char) : pyStripRight s <+: s := by
  rw [pyStripRight]
  have h := List.dropWhile_suffix (l := s.reverse) isPySpace
  have h2 : (s.reverse.dropWhile isPySpace).reverse <+: s.reverse.reverse := by
    rw [ List.reverse_prefix]
    exact h
  rwa [List.reverse_reverse] at h2

theorem pyStripRight_idem (s : List Char) : pyStripRight (pyStripRight s) = pyStripRight s := by
  simp only [pyStripRight, List.reverse_reverse]
  rw [dropWhile_idem]

theorem pyStripLeft_of_stripped (s : List Char) :
    pyStripLeft (pyStrip s) = pyStrip s :=
  dropWhile_eq_self_of_front isPySpace (dropWhile_idem isPySpace s)
    (pyStripRight_front (s.dropWhile isPySpace))

theorem pyStrip_idem (s : List Char) : pyStrip (pyStrip s) = pyStrip s := by
  conv_lhs => rw [pyStrip, pyStripLeft_of_stripped]
  conv_lhs => rw [pyStrip]
  rw [pyStripRight_idem]
  rfl

theorem hasSub_false_cons {pat : List Char} {c : Char} {rest : List Char}
    (h : hasSub pat (c :: rest) = false) :
    pat.isPrefixOf (c :: rest) = false ∧ hasSub pat rest = false := by
  rw [hasSub, Bool.or_eq_false_iff] at h
  exact h

theorem removeAllAux_id_of_no_occ (pat : List Char) (s : List Char)
    (h : hasSub pat s = false) : removeAllAux pat 0 s = s := by
  induction s with
  | nil => simp [removeAllAux]
  | cons c rest ih =>
    obtain ⟨h1, h2⟩ := hasSub_false_cons h
    simp only [removeAllAux]
    rw [if_neg (by simp [h1]), ih h2]

theorem removeAll_id_of_no_occ (pat s : List Char) (h : hasSub pat s = false) :
    removeAll pat s = s := by
  rw [removeAll]
  split
  · rfl
  · exact removeAllAux_id_of_no_occ pat s h

theorem beforeFirst?_none_of_no_occ (pat s : List Char) (h : hasSub pat s = false) :
    beforeFirst? pat s = none := by
  induction s with
  | nil => rfl
  | cons c rest ih =>
    obtain ⟨h1, h2⟩ := hasSub_false_cons h
    simp only [beforeFirst?]
    rw [if_neg (by simp [h1]), ih h2]
    rfl

theorem afterLastAux_acc_of_no_occ (pat s : List Char) (acc : Option (List Char))
    (h : hasSub pat s = false) : afterLastAux pat 0 acc s = acc := by
  induction s generalizing acc with
  | nil => rfl
  | cons c rest ih =>
    obtain ⟨h1, h2⟩ := hasSub_false_cons h
    simp only [afterLastAux]
    rw [if_neg (by simp [h1])]
    exact ih acc h2

theorem afterLast?_none_of_no_occ (pat s : List Char) (h : hasSub pat s = false) :
    afterLast? pat s = none := by
  rw [afterLast?]
  split
  · rfl
  · exact afterLastAux_acc_of_no_occ pat s none h

theorem foldl_strip_remove_id (L : List (List Char)) (t : List Char)
    (h : ∀ m ∈ L, hasSub m t = false) (hstrip : pyStrip t = t) :
    L.foldl (fun acc m => pyStrip (removeAll m acc)) t = t := by
  induction L with
  | nil => rfl
  | cons m L ih =>
    simp only [List.foldl_cons]
    rw [removeAll_id_of_no_occ m t (h m (by simp)), hstrip]
    exact ih (fun m' hm' => h m' (by simp [hm']))

theorem cleanSteps_id (t : List Char)
    (hm : ∀ m ∈ markers, hasSub m t = false)
    (hp : ∀ p ∈ closingPhrases, hasSub p t = false)
    (he : pyEndsWith "以上".toList t = false)
    (hstrip : pyStrip t = t) :
    cleanStep5 (cleanStep4 (cleanStep3 (cleanStep2 (cleanStep1 t)))) = t := by
  have h1 : cleanStep1 t = t := by
    rw [cleanStep1, beforeFirst?_none_of_no_occ endMarker t (hm endMarker (by decide))]
  have h2 : cleanStep2 t = t := by
    rw [cleanStep2, afterLast?_none_of_no_occ answerMarker t (hm answerMarker (by decide))]
  have h3 : cleanStep3 t = t := foldl_strip_remove_id markers t hm hstrip
  have h4 : cleanStep4 t = t := by
    rw [cleanStep4, he]
    simp
  have h5 : cleanStep5 t = t := foldl_strip_remove_id closingPhrases t hp hstrip
  rw [h1, h2, h3, h4, h5]

/-! ## Fixed points of blank-line collapsing -/

theorem wsRunNL_append_mono {u : List Char} {m : Nat} (h : wsRunNL u = some m) (r : List Char) :
    ∃ m', wsRunNL (u ++ r) = some m' ∧ m ≤ m' := by
  induction u generalizing m with
  | nil => simp [wsRunNL] at h
  | cons c u' ih =>
    simp only [wsRunNL] at h
    simp only [List.cons_append, wsRunNL, List.append_eq]
    by_cases hc : isPySpace c = true
    · rw [if_pos hc] at h
      rw [if_pos hc]
      cases hw : wsRunNL u' with
      | some k =>
        rw [hw] at h
        injection h with h
        obtain ⟨k', hk', hle⟩ := ih hw
        rw [hk']
        exact ⟨k' + 1, rfl, by omega⟩
      | none =>
        rw [hw] at h
        by_cases hnl : c = '\n'
        · rw [if_pos hnl] at h
          injection h with h
          cases hw2 : wsRunNL (u' ++ r) with
          | some k' => exact ⟨k' + 1, rfl, by omega⟩
          | none =>
            rw [if_pos hnl]
            exact ⟨1, rfl, by omega⟩
        · rw [if_neg hnl] at h
          exact absurd h (by simp)
    · rw [if_neg hc] at h
      exact absurd h (by simp)

theorem wsRunNL_append_none {u r : List Char} (h : wsRunNL (u ++ r) = none) :
    wsRunNL u = none := by
  cases hu : wsRunNL u with
  | none => rfl
  | some m =>
    obtain ⟨m', hm', _⟩ := wsRunNL_append_mono hu r
    rw [h] at hm'
    cases hm'

theorem wsRunNL_append_one {u r : List Char} (h : wsRunNL (u ++ r) = some 1) :
    wsRunNL u = none ∨ wsRunNL u = some 1 := by
  cases hu : wsRunNL u with
  | none => exact Or.inl rfl
  | some m =>
    right
    obtain ⟨m', hm', hle⟩ := wsRunNL_append_mono hu r
    rw [h] at hm'
    injection hm' with hm'
    have h1 := (wsRunNL_bounds hu).1
    have : m = 1 := by omega
    rw [this]

theorem noCollapse_of_suffix {s t : List Char} (hsuf : t <:+ s) (h : noCollapse s) :
    noCollapse t :=
  fun t' u ht' hu => h t' u (ht'.trans hsuf) hu

theorem noCollapse_of_front {s t : List Char} (hpre : t <+: s) (h : noCollapse s) :
    noCollapse t := by
  intro t' u ht' hu
  obtain ⟨r, hr⟩ := hpre
  obtain ⟨w, hw⟩ := ht'
  have hsuf : t' ++ r <:+ s := ⟨w, by rw [← hr, ← hw, List.append_assoc]⟩
  have h2 := h (t' ++ r) (u ++ r) hsuf (by rw [hu, List.cons_append])
  rcases h2 with h0 | h1
  · exact Or.inl (wsRunNL_append_none h0)
  · exact wsRunNL_append_one h1

theorem subBlankAux_skip_drop (n : Nat) (s : List Char) :
    subBlankAux n s = subBlankAux 0 (s.drop n) := by
  induction s generalizing n with
  | nil => simp [subBlankAux]
  | cons c rest ih =>
    cases n with
    | zero => rfl
    | succ m =>
      simp only [subBlankAux, List.drop_succ_cons]
      exact ih m

theorem wsRunNL_some_drop {l : List Char} {n : Nat} (h : wsRunNL l = some n) :
    wsRunNL (l.drop n) = none := by
  induction l generalizing n with
  | nil => simp [wsRunNL] at h
  | cons c rest ih =>
    simp only [wsRunNL] at h
    by_cases hc : isPySpace c = true
    · rw [if_pos hc] at h
      cases hw : wsRunNL rest with
      | some k =>
        rw [hw] at h
        injection h with h
        rw [← h, List.drop_succ_cons]
        exact ih hw
      | none =>
        rw [hw] at h
        by_cases hnl : c = '\n'
        · rw [if_pos hnl] at h
          injection h with h
          rw [← h]
          simpa using hw
        · rw [if_neg hnl] at h
          exact absurd h (by simp)
    · rw [if_neg hc] at h
      exact absurd h (by simp)

theorem wsRunNL_none_subBlank {y : List Char} (h : wsRunNL y = none) :
    wsRunNL (subBlankAux 0 y) = none := by
  induction y with
  | nil => rfl
  | cons c y' ih =>
    simp only [wsRunNL] at h
    by_cases hc : isPySpace c = true
    · rw [if_pos hc] at h
      cases hw : wsRunNL y' with
      | some k =>
        rw [hw] at h
        exact absurd h (by simp)
      | none =>
        rw [hw] at h
        by_cases hnl : c = '\n'
        · rw [if_pos hnl] at h
          exact absurd h (by simp)
        · simp only [subBlankAux]
          rw [if_neg hnl]
          simp only [wsRunNL]
          rw [if_pos hc, ih hw]
          rw [if_neg hnl]
    · have hnl : ¬ (c = '\n') := by
        intro he
        rw [he] at hc
        exact hc (by decide)
      simp only [subBlankAux]
      rw [if_neg hnl]
      simp only [wsRunNL]
      rw [if_neg hc]

theorem subBlankAux_nil (n : Nat) : subBlankAux n [] = [] := by
  cases n <;> rfl

theorem subBlankAux_succ (m : Nat) (c : Char) (rest : List Char) :
    subBlankAux (m+1) (c :: rest) = subBlankAux m rest := rfl

theorem subBlankAux_zero_nl (rest : List Char) :
    subBlankAux 0 ('\n' :: rest) = (match wsRunNL rest with
      | some n => '\n' :: '\n' :: subBlankAux n rest
      | none => '\n' :: subBlankAux 0 rest) := rfl

theorem wsRunNL_nl (y : List Char) :
    wsRunNL ('\n' :: y) = (match wsRunNL y with
      | some n => some (n+1)
      | none => some 1) := rfl

theorem noCollapse_cons {X : List Char} {c : Char} (hX : noCollapse X)
    (hc : c = '\n' → wsRunNL X = none ∨ wsRunNL X = some 1) :
    noCollapse (c :: X) := by
  intro t u ht hu
  rcases List.suffix_cons_iff.mp ht with rfl | hsuf
  · injection hu with h1 h2
    subst h2
    exact hc h1
  · exact hX t u hsuf hu

theorem noCollapse_subBlankAux (s : List Char) : ∀ n, noCollapse (subBlankAux n s) := by
  induction s with
  | nil =>
    intro n t u ht hu
    rw [subBlankAux_nil] at ht
    rw [List.suffix_nil.mp ht] at hu
    cases hu
  | cons c rest ih =>
    intro n
    cases n with
    | succ m =>
      rw [subBlankAux_succ]
      exact ih m
    | zero =>
      by_cases hc : c = '\n'
      · subst hc
        cases hw : wsRunNL rest with
        | some m =>
          have e : subBlankAux 0 ('\n' :: rest) = '\n' :: '\n' :: subBlankAux m rest := by
            rw [subBlankAux_zero_nl, hw]
          rw [e]
          have hY : noCollapse (subBlankAux m rest) := ih m
          have hYnone : wsRunNL (subBlankAux m rest) = none := by
            rw [subBlankAux_skip_drop]
            exact wsRunNL_none_subBlank (wsRunNL_some_drop hw)
          apply noCollapse_cons
          · exact noCollapse_cons hY (fun _ => Or.inl hYnone)
          · intro _
            right
            rw [wsRunNL_nl, hYnone]
        | none =>
          have e : subBlankAux 0 ('\n' :: rest) = '\n' :: subBlankAux 0 rest := by
            rw [subBlankAux_zero_nl, hw]
          rw [e]
          exact noCollapse_cons (ih 0) (fun _ => Or.inl (wsRunNL_none_subBlank hw))
      · have e : subBlankAux 0 (c :: rest) = c :: subBlankAux 0 rest := by
          simp only [subBlankAux]
          rw [if_neg hc]
        rw [e]
        exact noCollapse_cons (ih 0) (fun h => absurd h hc)

theorem wsRunNL_eq_one {l : List Char} (h : wsRunNL l = some 1) :
    ∃ l', l = '\n' :: l' ∧ wsRunNL l' = none := by
  cases l with
  | nil => simp [wsRunNL] at h
  | cons c rest =>
    simp only [wsRunNL] at h
    by_cases hc : isPySpace c = true
    · rw [if_pos hc] at h
      cases hw : wsRunNL rest with
      | some k =>
        rw [hw] at h
        injection h with h
        have := (wsRunNL_bounds hw).1
        omega
      | none =>
        rw [hw] at h
        by_cases hnl : c = '\n'
        · exact ⟨rest, by rw [hnl], hw⟩
        · rw [if_neg hnl] at h
          exact absurd h (by simp)
    · rw [if_neg hc] at h
      exact absurd h (by simp)

theorem subBlankAux_fix_bounded :
    ∀ (bound : Nat) (s : List Char), s.length ≤ bound → noCollapse s → subBlankAux 0 s = s := by
  intro bound
  induction bound with
  | zero =>
    intro s hl _
    rw [List.length_eq_zero.mp (Nat.le_zero.mp hl)]
    rfl
  | succ k ihk =>
    intro s hl h
    cases s with
    | nil => rfl
    | cons c rest =>
      by_cases hc : c = '\n'
      · subst hc
        cases hw : wsRunNL rest with
        | none =>
          have e : subBlankAux 0 ('\n' :: rest) = '\n' :: subBlankAux 0 rest := by
            rw [subBlankAux_zero_nl, hw]
          rw [e, ihk rest (by simp only [List.length_cons] at hl; omega)
            (noCollapse_of_suffix (List.suffix_cons _ _) h)]
        | some m =>
          have hm : m = 1 := by
            rcases h ('\n' :: rest) rest (List.suffix_refl _) rfl with h0 | h0 <;>
              rw [hw] at h0
            · cases h0
            · injection h0
          subst hm
          obtain ⟨rest', hr, hwn⟩ := wsRunNL_eq_one hw
          subst hr
          have e : subBlankAux 0 ('\n' :: '\n' :: rest') =
              '\n' :: '\n' :: subBlankAux 0 rest' := by
            rw [subBlankAux_zero_nl, hw]
            exact rfl
          rw [e, ihk rest' (by simp only [List.length_cons] at hl; omega)
            (noCollapse_of_suffix ((List.suffix_cons _ _).trans (List.suffix_cons _ _)) h)]
      · have e : subBlankAux 0 (c :: rest) = c :: subBlankAux 0 rest := by
          simp only [subBlankAux]
          rw [if_neg hc]
        rw [e, ihk rest (by simp only [List.length_cons] at hl; omega)
          (noCollapse_of_suffix (List.suffix_cons _ _) h)]

theorem subBlank_fix_of_noCollapse (s : List Char) (h : noCollapse s) : subBlank s = s :=
  subBlankAux_fix_bounded s.length s (le_refl _) h

theorem cleanAnswer_shape (u : List Char) (hu : u.isEmpty = false) :
    cleanAnswer u =
      pyStrip (subBlank (cleanStep5 (cleanStep4 (cleanStep3 (cleanStep2 (cleanStep1 u)))))) := by
  simp [cleanAnswer, hu]

/-- C2 (amended): the sanitizer is not idempotent in general
(`clean_answer_not_idempotent`), because a second pass can strip a further
trailing `'以上'`, and marker or boilerplate-phrase removal can splice a new
marker or phrase into the output; but whenever the once-cleaned output
contains no structural marker token and no closing phrase and does not end
with `'以上'`, a second application of `clean_answer` leaves it unchanged. -/
theorem clean_answer_idempotent_amended (s : List Char)
    (hm : ∀ m ∈ markers, hasSub m (cleanAnswer s) = false)
    (hp : ∀ p ∈ closingPhrases, hasSub p (cleanAnswer s) = false)
    (he : pyEndsWith "以上".toList (cleanAnswer s) = false) :
    cleanAnswer (cleanAnswer s) = cleanAnswer s := by
  by_cases hs : s.isEmpty = true
  · rw [show s = [] by simpa [List.isEmpty_iff] using hs]
    rfl
  · have hshape := cleanAnswer_shape s (by simpa using hs)
    have hstrip : pyStrip (cleanAnswer s) = cleanAnswer s := by
      rw [hshape]
      exact pyStrip_idem _
    have hnc : noCollapse (cleanAnswer s) := by
      rw [hshape]
      apply noCollapse_of_front (pyStripRight_front _)
      apply noCollapse_of_suffix (List.dropWhile_suffix _)
      exact noCollapse_subBlankAux _ 0
    have hfix : subBlank (cleanAnswer s) = cleanAnswer s :=
      subBlank_fix_of_noCollapse _ hnc
    by_cases ht : (cleanAnswer s).isEmpty = true
    · rw [show cleanAnswer s = [] by simpa [List.isEmpty_iff] using ht]
      rfl
    · rw [cleanAnswer_shape (cleanAnswer s) (by simpa using ht)]
      rw [cleanSteps_id (cleanAnswer s) hm hp he hstrip, hfix, hstrip]

/-- Witness for the amended C2: the input `'你好【回答】测试'` cleans to
`'测试'`, which contains no marker and no closing phrase and does not end
with `'以上'`, and cleaning it again leaves it unchanged. -/
theorem clean_answer_idempotent_amended_witness :
    cleanAnswer (cleanAnswer "你好【回答】测试".toList) = cleanAnswer "你好【回答】测试".toList :=
  clean_answer_idempotent_amended _ (by decide) (by decide) (by decide)

end HongLou
